import Mathlib

/-!
Verification of the WebRTC-Screen core: the UDP fragmentation/reassembly
protocol (`writeFragments` / `waitForMessageWithFragments` in the host and
controller binaries) and the multi-connection client registry
(`clients.Manager` with `SetControl` / `AddStream` / `RemoveStream` /
`RemoveControl` / `NextTarget`).

Byte strings are modelled as `List Char` (Go strings are byte slices; all
the data handled here is ASCII-safe).  Go maps are modelled as association
lists whose insertion replaces an existing key in place and appends a fresh
key at the end, so the key set of the model matches the key set of the map
at every step.  `strconv.Atoi` is modelled by `atoi?` (optional sign, then
one or more decimal digits, `none` on anything else), `fmt.Sprintf` with
`%d` by `natToDigits`, `strings.SplitN(s, ":", n)` by `splitN`, and
`sort.Ints` by `List.insertionSort (· ≤ ·)` (any correct sort).
-/

namespace WebRTCScreen

/-- Byte strings of the Go program. -/
abbrev Str := List Char

/-! ### Association lists standing in for Go maps -/

/-- Go map read: first binding of key `k`, if any. -/
def alookup {κ β : Type} [DecidableEq κ] : List (κ × β) → κ → Option β
  | [], _ => none
  | (k, v) :: t, k0 => if k = k0 then some v else alookup t k0

/-- Go map write `m[k] = v`: replace in place, or append a fresh key. -/
def aupsert {κ β : Type} [DecidableEq κ] : List (κ × β) → κ → β → List (κ × β)
  | [], k0, v0 => [(k0, v0)]
  | (k, v) :: t, k0, v0 =>
      if k = k0 then (k0, v0) :: t else (k, v) :: aupsert t k0 v0

/-- Go map `delete(m, k)`. -/
def aremove {κ β : Type} [DecidableEq κ] : List (κ × β) → κ → List (κ × β)
  | [], _ => []
  | (k, v) :: t, k0 => if k = k0 then aremove t k0 else (k, v) :: aremove t k0

/-! ### Decimal formatting and parsing (`fmt.Sprintf "%d"`, `strconv.Atoi`) -/

/-- The decimal digit character for `d < 10`. -/
def digitChar (d : Nat) : Char := Char.ofNat (48 + d)

/-- Decimal rendering of a natural number, as Go `%d` prints it. -/
def natToDigits (n : Nat) : List Char :=
  if _h : n < 10 then [digitChar n]
  else natToDigits (n / 10) ++ [digitChar (n % 10)]
  decreasing_by exact Nat.div_lt_self (by omega) (by omega)

/-- Value of a decimal digit character, `none` for a non-digit. -/
def digitVal? (c : Char) : Option Nat :=
  if 48 ≤ c.toNat ∧ c.toNat ≤ 57 then some (c.toNat - 48) else none

/-- Accumulate one character into a running decimal value. -/
def digitStep (acc : Option Nat) (c : Char) : Option Nat :=
  match acc, digitVal? c with
  | some a, some d => some (10 * a + d)
  | _, _ => none

/-- Decimal value of an all-digit string (empty string folds to `0`). -/
def digitsVal (s : List Char) : Option Nat :=
  s.foldl digitStep (some 0)

/-- Parse a nonempty all-digit string; `none` otherwise. -/
def parseNatDigits? (s : List Char) : Option Nat :=
  if s = [] then none else digitsVal s

/-- Model of `strconv.Atoi`: optional single sign, then decimal digits. -/
def atoi? (s : List Char) : Option Int :=
  match s with
  | [] => none
  | c :: cs =>
      if c = '-' then (parseNatDigits? cs).map (fun n => -(n : Int))
      else if c = '+' then (parseNatDigits? cs).map (fun n => (n : Int))
      else (parseNatDigits? s).map (fun n => (n : Int))

/-! ### `strings.SplitN(s, sep, n)` -/

/-- `strings.SplitN` with positive count `n`: at most `n` pieces, the last
piece keeps the remainder (later separators included). -/
def splitN (sep : Char) : Nat → List Char → List (List Char)
  | 0, _ => []
  | 1, s => [s]
  | n + 2, s =>
      let before := s.takeWhile (fun c => ¬ c = sep)
      let rest := s.dropWhile (fun c => ¬ c = sep)
      match rest with
      | [] => [s]
      | _ :: t => before :: splitN sep (n + 1) t

/-! ### The fragmenter (`writeFragments`)

The source sends each chunk over UDP with header
`fmt.Sprintf("FRAG:%s:%d:%d:", msgID, numChunks, i)`; here the list of
datagram payloads produced by the loop is returned.  The source fixes
`maxUDPPayloadSize = 1200`; the chunk ceiling `c` is a parameter so the
statements quantify over it. -/

/-- One chunk datagram: header plus the `i`-th slice of the message. -/
def fragDatagram (c : Nat) (msgID : Str) (message : Str) (numChunks i : Nat) : Str :=
  "FRAG:".data ++ msgID ++ ":".data ++ natToDigits numChunks ++ ":".data ++
    natToDigits i ++ ":".data ++ ((message.drop (i * c)).take c)

/-- The datagrams `writeFragments` sends, in send order: `numChunks =
(len+c-1)/c` chunks of at most `c` bytes drawn consecutively from the
message. -/
def writeFragments (c : Nat) (msgID : Str) (message : Str) : List Str :=
  let numChunks := (message.length + c - 1) / c
  (List.range numChunks).map (fun i => fragDatagram c msgID message numChunks i)

/-! ### The reassembler (`waitForMessageWithFragments`)

The two local maps of the wait loop (`chunks : msgID -> chunkIndex -> data`
and `totalChunks : msgID -> total`) form the reassembly state; one loop
iteration over a received datagram is `processDatagram`, and `runWait`
folds it over a finite arrival sequence, returning the first completed,
prefix-matching message (`none` stands for reaching the read deadline
with no such message). -/

structure ReState where
  chunks : List (Str × List (Int × Str))
  totalChunks : List (Str × Int)
deriving DecidableEq

/-- The empty reassembly state at the start of a wait. -/
def initState : ReState := ⟨[], []⟩

/-- Reassemble a completed entry: keys sorted ascending (`sort.Ints`),
then payloads concatenated in that key order. -/
def reassembleEntry (entry : List (Int × Str)) : Str :=
  let keys := (entry.map Prod.fst).insertionSort (· ≤ ·)
  (keys.map (fun k => (alookup entry k).getD [])).flatten

/-- One iteration of the receive loop on datagram `msg`, given the awaited
prefix `pfx`: returns the updated state and the message the call would
return, if this datagram completes one. -/
def processDatagram (pfx : Str) (st : ReState) (msg : Str) : ReState × Option Str :=
  if "FRAG:".data.isPrefixOf msg then
    match splitN ':' 5 msg with
    | [_, msgID, numChunksStr, chunkIndexStr, payload] =>
      match atoi? numChunksStr, atoi? chunkIndexStr with
      | some numChunks, some chunkIndex =>
          let st1 : ReState :=
            if (alookup st.chunks msgID).isSome then st
            else ⟨aupsert st.chunks msgID [], aupsert st.totalChunks msgID numChunks⟩
          let entry := (alookup st1.chunks msgID).getD []
          let entry1 := aupsert entry chunkIndex payload
          let st2 : ReState := ⟨aupsert st1.chunks msgID entry1, st1.totalChunks⟩
          if (entry1.length : Int) = (alookup st2.totalChunks msgID).getD 0 then
            let fullMsg := reassembleEntry entry1
            if pfx.isPrefixOf fullMsg then
              (⟨aremove st2.chunks msgID, aremove st2.totalChunks msgID⟩,
                some (fullMsg.drop pfx.length))
            else (st2, none)
          else (st2, none)
      | _, _ => (st, none)
    | _ => (st, none)
  else if pfx.isPrefixOf msg then (st, some (msg.drop pfx.length))
  else (st, none)

/-- Run the receive loop over a finite arrival sequence: the first
completed matching message, if the sequence produces one. -/
def runWait (pfx : Str) (st : ReState) : List Str → Option Str
  | [] => none
  | msg :: rest =>
      match processDatagram pfx st msg with
      | (_, some result) => some result
      | (st1, none) => runWait pfx st1 rest

/-- The `totalChunks` field a datagram carries, as the reassembler would
parse it (`none` for a datagram with fewer than five fields or a
non-numeric field). -/
def fragTotal? (msg : Str) : Option Int :=
  match splitN ':' 5 msg with
  | [_, _, numChunksStr, _, _] => atoi? numChunksStr
  | _ => none

/-! ### The client registry (`clients.Manager`)

Connections are an arbitrary type with decidable equality (Go compares
`*websocket.Conn` pointers).  The `clients` map is an association list
keyed by client id; every operation re-reads the entry it mutates, so
modelling the Go pointer indirection by whole-entry replacement is
observation-equivalent. -/

structure Client (Conn : Type) where
  Control : Option Conn
  Streams : List Conn
  streamIdx : Nat
deriving DecidableEq

structure Manager (Conn : Type) where
  clients : List (String × Client Conn)
deriving DecidableEq

/-- `NewManager`: empty registry. -/
def NewManager (Conn : Type) : Manager Conn := ⟨[]⟩

/-- `getOrCreate`: the entry for `id`, or a zero-valued fresh `Client`. -/
def getOrCreate {Conn : Type} [DecidableEq Conn] (m : Manager Conn) (id : String) :
    Client Conn :=
  (alookup m.clients id).getD ⟨none, [], 0⟩

/-- `SetControl`: install `conn` as the control connection, creating the
session if absent; return the previous control connection when it existed
and differs from `conn`. -/
def SetControl {Conn : Type} [DecidableEq Conn] (m : Manager Conn) (id : String)
    (conn : Conn) : Manager Conn × Option Conn :=
  let c := getOrCreate m id
  let old := if c.Control ≠ none ∧ c.Control ≠ some conn then c.Control else none
  (⟨aupsert m.clients id { c with Control := some conn }⟩, old)

/-- `AddStream`: append `conn` to the stream list of the session, creating the
session if absent. -/
def AddStream {Conn : Type} [DecidableEq Conn] (m : Manager Conn) (id : String)
    (conn : Conn) : Manager Conn :=
  let c := getOrCreate m id
  ⟨aupsert m.clients id { c with Streams := c.Streams ++ [conn] }⟩

/-- `RemoveStream`: remove the first occurrence of `conn` from the
stream list of the session; no-op for an unknown id. -/
def RemoveStream {Conn : Type} [DecidableEq Conn] (m : Manager Conn) (id : String)
    (conn : Conn) : Manager Conn :=
  match alookup m.clients id with
  | none => m
  | some c => ⟨aupsert m.clients id { c with Streams := c.Streams.erase conn }⟩

/-- `RemoveControl`: clear the control connection when it is `conn`;
no-op otherwise and for an unknown id. -/
def RemoveControl {Conn : Type} [DecidableEq Conn] (m : Manager Conn) (id : String)
    (conn : Conn) : Manager Conn :=
  match alookup m.clients id with
  | none => m
  | some c =>
      if c.Control = some conn then ⟨aupsert m.clients id { c with Control := none }⟩
      else m

/-- `NextTarget`: round-robin among the stream connections, advancing the
cursor; fall back to the control connection (possibly absent) when no
stream connection exists; `none` without state change for an unknown id. -/
def NextTarget {Conn : Type} [DecidableEq Conn] (m : Manager Conn) (id : String) :
    Option Conn × Manager Conn :=
  match alookup m.clients id with
  | none => (none, m)
  | some c =>
      if h : 0 < c.Streams.length then
        let target := c.Streams.get ⟨c.streamIdx % c.Streams.length, Nat.mod_lt _ h⟩
        (some target, ⟨aupsert m.clients id { c with streamIdx := c.streamIdx + 1 }⟩)
      else (c.Control, m)

/-- The results of `n` consecutive `NextTarget` calls for `id`, oldest
first, threading the registry state through the calls. -/
def nextTargets {Conn : Type} [DecidableEq Conn] (m : Manager Conn) (id : String) :
    Nat → List (Option Conn)
  | 0 => []
  | n + 1 =>
      let r := NextTarget m id
      r.1 :: nextTargets r.2 id n

/-! ### Proof infrastructure for the fragmentation round trip -/

/-- The `i`-th chunk payload of a message under chunk ceiling `c`. -/
def msgSlice (c : Nat) (M : Str) (i : Nat) : Str := (M.drop (i * c)).take c

/-- The chunk count `writeFragments` computes. -/
def numChunksOf (c : Nat) (M : Str) : Nat := (M.length + c - 1) / c

/-- The reassembly entry after receiving the chunks indexed by `js`, in
that arrival order. -/
def mkEntry (c : Nat) (M : Str) (js : List Nat) : List (Int × Str) :=
  js.map (fun j : Nat => ((j : Int), msgSlice c M j))

/-- The reassembly state mid-flight: empty before the first chunk, then a
single pending entry for `msgID` with total `numChunksOf c M`. -/
def mkState (c : Nat) (msgID M : Str) (js : List Nat) : ReState :=
  if js = [] then initState
  else ⟨[(msgID, mkEntry c M js)], [(msgID, (numChunksOf c M : Int))]⟩

/-! ### Association-list lemmas -/

theorem alookup_aupsert_self {κ β : Type} [DecidableEq κ] (l : List (κ × β)) (k : κ)
    (v : β) : alookup (aupsert l k v) k = some v := by
  induction l with
  | nil => simp [aupsert, alookup]
  | cons hd t ih =>
      obtain ⟨k1, v1⟩ := hd
      by_cases h : k1 = k <;> simp [aupsert, alookup, h, ih]

theorem alookup_aupsert_ne {κ β : Type} [DecidableEq κ] (l : List (κ × β)) (k k0 : κ)
    (v : β) (hne : k ≠ k0) : alookup (aupsert l k v) k0 = alookup l k0 := by
  induction l with
  | nil => simp [aupsert, alookup, hne]
  | cons hd t ih =>
      obtain ⟨k1, v1⟩ := hd
      by_cases h : k1 = k
      · subst h
        simp [aupsert, alookup, hne]
      · by_cases h0 : k1 = k0 <;> simp [aupsert, alookup, h, h0, ih, Ne.symm hne]

theorem aupsert_of_lookup_none {κ β : Type} [DecidableEq κ] (l : List (κ × β)) (k : κ)
    (v : β) (h : alookup l k = none) : aupsert l k v = l ++ [(k, v)] := by
  induction l with
  | nil => simp [aupsert]
  | cons hd t ih =>
      obtain ⟨k1, v1⟩ := hd
      by_cases hk : k1 = k
      · simp [alookup, hk] at h
      · simp [alookup, hk] at h
        simp [aupsert, hk, ih h]

/-! ### Decimal round-trip lemmas -/

theorem digitVal?_digitChar : ∀ d < 10, digitVal? (digitChar d) = some d := by decide

theorem digitChar_not_sign : ∀ d < 10, ¬ digitChar d = '-' ∧ ¬ digitChar d = '+' := by
  decide

theorem digitChar_ne_colon : ∀ d < 10, ¬ digitChar d = ':' := by decide

theorem natToDigits_ne_nil (n : Nat) : natToDigits n ≠ [] := by
  rw [natToDigits]
  split <;> simp

theorem natToDigits_mem (n : Nat) : ∀ c ∈ natToDigits n, ∃ d, d < 10 ∧ c = digitChar d := by
  induction n using Nat.strong_induction_on with
  | _ n ih =>
      intro c hc
      rw [natToDigits] at hc
      split at hc
      · next h => simp at hc; exact ⟨n, h, hc⟩
      · next h =>
          simp only [List.mem_append, List.mem_singleton] at hc
          rcases hc with hc | hc
          · exact ih (n / 10) (Nat.div_lt_self (by omega) (by omega)) c hc
          · exact ⟨n % 10, Nat.mod_lt _ (by omega), hc⟩

theorem natToDigits_no_colon (n : Nat) : ∀ c ∈ natToDigits n, ¬ c = ':' := by
  intro c hc
  obtain ⟨d, hd, rfl⟩ := natToDigits_mem n c hc
  exact digitChar_ne_colon d hd

theorem digitsVal_natToDigits (n : Nat) : digitsVal (natToDigits n) = some n := by
  induction n using Nat.strong_induction_on with
  | _ n ih =>
      rw [natToDigits]
      split
      · next h =>
          simp [digitsVal, digitStep, digitVal?_digitChar n h]
      · next h =>
          have ihd := ih (n / 10) (Nat.div_lt_self (by omega) (by omega))
          simp only [digitsVal, List.foldl_append] at *
          rw [ihd]
          simp [digitStep, digitVal?_digitChar (n % 10) (Nat.mod_lt _ (by omega))]
          omega

theorem parseNatDigits?_natToDigits (n : Nat) :
    parseNatDigits? (natToDigits n) = some n := by
  rw [parseNatDigits?, if_neg (natToDigits_ne_nil n), digitsVal_natToDigits]

theorem atoi?_natToDigits (n : Nat) : atoi? (natToDigits n) = some (n : Int) := by
  have hne := natToDigits_ne_nil n
  have hmem := natToDigits_mem n
  have hparse := parseNatDigits?_natToDigits n
  rcases hd : natToDigits n with _ | ⟨c, cs⟩
  · exact absurd hd hne
  · have hc : c ∈ natToDigits n := by rw [hd]; exact List.mem_cons_self _ _
    obtain ⟨d, hd10, rfl⟩ := hmem _ hc
    obtain ⟨hm, hp⟩ := digitChar_not_sign d hd10
    rw [hd] at hparse
    simp [atoi?, hm, hp, hparse]

/-! ### `splitN` lemmas -/

theorem takeWhile_append_cons {p : Char → Bool} (a : List Char) (x : Char)
    (r : List Char) (ha : ∀ c ∈ a, p c) (hx : ¬ p x) :
    (a ++ x :: r).takeWhile p = a := by
  induction a with
  | nil => simp [List.takeWhile_cons, hx]
  | cons hd t ih =>
      have hhd : p hd := ha hd (List.mem_cons_self _ _)
      simp only [List.cons_append, List.takeWhile_cons, hhd]
      simp [ih (fun c hc => ha c (List.mem_cons_of_mem _ hc))]

theorem dropWhile_append_cons {p : Char → Bool} (a : List Char) (x : Char)
    (r : List Char) (ha : ∀ c ∈ a, p c) (hx : ¬ p x) :
    (a ++ x :: r).dropWhile p = x :: r := by
  induction a with
  | nil => simp [List.dropWhile_cons, hx]
  | cons hd t ih =>
      have hhd : p hd := ha hd (List.mem_cons_self _ _)
      simp only [List.cons_append, List.dropWhile_cons, hhd]
      simp [ih (fun c hc => ha c (List.mem_cons_of_mem _ hc))]

theorem splitN_cons_sep (sep : Char) (n : Nat) (a r : List Char)
    (ha : ∀ c ∈ a, ¬ c = sep) :
    splitN sep (n + 2) (a ++ sep :: r) = a :: splitN sep (n + 1) r := by
  have hta : (a ++ sep :: r).takeWhile (fun c => decide (¬ c = sep)) = a :=
    takeWhile_append_cons a sep r (fun c hc => by simpa using ha c hc) (by simp)
  have hda : (a ++ sep :: r).dropWhile (fun c => decide (¬ c = sep)) = sep :: r :=
    dropWhile_append_cons a sep r (fun c hc => by simpa using ha c hc) (by simp)
  simp only [splitN, hta, hda]

theorem splitN_one (sep : Char) (s : List Char) : splitN sep 1 s = [s] := rfl

theorem isPrefixOf_append (a b : List Char) : a.isPrefixOf (a ++ b) = true := by
  induction a with
  | nil => simp [List.isPrefixOf]
  | cons h t ih => simp [List.isPrefixOf, ih]

/-! ### Parsing a well-formed chunk datagram -/

theorem fragDatagram_eq_nested (c : Nat) (msgID M : Str) (n i : Nat) :
    fragDatagram c msgID M n i =
      "FRAG".data ++ ':' :: (msgID ++ ':' :: (natToDigits n ++ ':' ::
        (natToDigits i ++ ':' :: msgSlice c M i))) := by
  simp [fragDatagram, msgSlice]

theorem splitN_fragDatagram (c : Nat) (msgID M : Str) (n i : Nat)
    (hid : ∀ ch ∈ msgID, ¬ ch = ':') :
    splitN ':' 5 (fragDatagram c msgID M n i) =
      ["FRAG".data, msgID, natToDigits n, natToDigits i, msgSlice c M i] := by
  rw [fragDatagram_eq_nested]
  rw [show (5 : Nat) = 3 + 2 from rfl,
    splitN_cons_sep ':' 3 "FRAG".data _ (by decide)]
  rw [show (3 : Nat) + 1 = 2 + 2 from rfl, splitN_cons_sep ':' 2 msgID _ hid]
  rw [show (2 : Nat) + 1 = 1 + 2 from rfl,
    splitN_cons_sep ':' 1 (natToDigits n) _ (natToDigits_no_colon n)]
  rw [show (1 : Nat) + 1 = 0 + 2 from rfl,
    splitN_cons_sep ':' 0 (natToDigits i) _ (natToDigits_no_colon i)]
  rfl

theorem fragDatagram_isFrag (c : Nat) (msgID M : Str) (n i : Nat) :
    "FRAG:".data.isPrefixOf (fragDatagram c msgID M n i) = true := by
  rw [fragDatagram]
  exact isPrefixOf_append "FRAG:".data _

/-! ### Reassembly-entry lemmas -/

theorem alookup_mkEntry_not_mem (c : Nat) (M : Str) (js : List Nat) (i : Nat)
    (h : i ∉ js) : alookup (mkEntry c M js) ((i : Int)) = none := by
  induction js with
  | nil => rfl
  | cons j t ih =>
      have hji : ¬ ((j : Nat) : Int) = ((i : Nat) : Int) := by
        simp only [List.mem_cons, not_or] at h
        simpa using fun hh => h.1 hh.symm
      simp only [mkEntry, List.map_cons, alookup, hji, if_false]
      exact ih (fun hm => h (List.mem_cons_of_mem _ hm))

theorem alookup_mkEntry_mem (c : Nat) (M : Str) (js : List Nat) (j : Nat)
    (h : j ∈ js) : alookup (mkEntry c M js) ((j : Int)) = some (msgSlice c M j) := by
  induction js with
  | nil => simp at h
  | cons k t ih =>
      by_cases hkj : k = j
      · subst hkj
        simp [mkEntry, alookup]
      · have hne : ¬ ((k : Nat) : Int) = ((j : Nat) : Int) := by simpa using hkj
        have hm : j ∈ t := by
          rcases List.mem_cons.mp h with h1 | h1
          · exact absurd h1.symm hkj
          · exact h1
        simp only [mkEntry, List.map_cons, alookup, hne, if_false]
        exact ih hm

theorem mkEntry_append (c : Nat) (M : Str) (js : List Nat) (i : Nat) :
    mkEntry c M (js ++ [i]) = mkEntry c M js ++ [((i : Int), msgSlice c M i)] := by
  simp [mkEntry]

theorem mkEntry_fst (c : Nat) (M : Str) (js : List Nat) :
    (mkEntry c M js).map Prod.fst = js.map (fun j : Nat => (j : Int)) := by
  simp [mkEntry]

theorem flatten_slices (c : Nat) (M : Str) :
    ∀ k : Nat, ((List.range k).map (msgSlice c M)).flatten = M.take (k * c) := by
  intro k
  induction k with
  | zero => simp
  | succ k ih =>
      rw [List.range_succ, List.map_append, List.flatten_append, ih]
      simp only [List.map_cons, List.map_nil, List.flatten_cons, List.flatten_nil,
        List.append_nil, msgSlice]
      rw [Nat.succ_mul, List.take_add]

theorem length_le_numChunks_mul (c : Nat) (hc : 1 ≤ c) (M : Str) :
    M.length ≤ numChunksOf c M * c := by
  have h := Nat.div_add_mod (M.length + c - 1) c
  have h2 : (M.length + c - 1) % c < c := Nat.mod_lt _ hc
  rw [numChunksOf, Nat.mul_comm]
  omega

/-- A completed entry holding the chunks indexed by a permutation of
`range numChunks` reassembles to the original message. -/
theorem reassembleEntry_mkEntry (c : Nat) (hc : 1 ≤ c) (M : Str) (js : List Nat)
    (hperm : js.Perm (List.range (numChunksOf c M))) :
    reassembleEntry (mkEntry c M js) = M := by
  set n := numChunksOf c M with hn
  have hkeys : (mkEntry c M js).map Prod.fst = js.map (fun j : Nat => (j : Int)) :=
    mkEntry_fst c M js
  have hsorted :
      ((mkEntry c M js).map Prod.fst).insertionSort (· ≤ ·) =
        (List.range n).map (fun j : Nat => (j : Int)) := by
    haveI : IsAntisymm Int (· ≤ ·) := ⟨fun _ _ => le_antisymm⟩
    have hp2 : (((mkEntry c M js).map Prod.fst).insertionSort (· ≤ ·)).Perm
        ((List.range n).map (fun j : Nat => (j : Int))) :=
      (List.perm_insertionSort _ _).trans (by rw [hkeys]; exact hperm.map _)
    have hs1 := List.sorted_insertionSort (· ≤ ·) ((mkEntry c M js).map Prod.fst)
    have hs2 : ((List.range n).map (fun j : Nat => (j : Int))).Sorted (· ≤ ·) := by
      refine List.Pairwise.map _ ?_ (List.sorted_le_range n)
      intro a b hab
      exact Int.ofNat_le.mpr hab
    exact List.eq_of_perm_of_sorted hp2 hs1 hs2
  rw [reassembleEntry, hsorted, List.map_map]
  have hmap :
      (List.range n).map
          ((fun k => (alookup (mkEntry c M js) k).getD []) ∘ (fun j : Nat => (j : Int))) =
        (List.range n).map (msgSlice c M) := by
    apply List.map_congr_left
    intro j hj
    have h1 := alookup_mkEntry_mem c M js j (hperm.mem_iff.mpr hj)
    simp only [Function.comp]
    rw [h1]
    rfl
  rw [hmap, flatten_slices]
  exact List.take_of_length_le (length_le_numChunks_mul c hc M)

/-! ### One receive-loop step on a well-formed chunk datagram -/

theorem mkEntry_length (c : Nat) (M : Str) (js : List Nat) :
    (mkEntry c M js).length = js.length := by
  simp [mkEntry]

theorem isFrag_char_list (c : Nat) (msgID M : Str) (n i : Nat) :
    (['F', 'R', 'A', 'G', ':'] : List Char).isPrefixOf (fragDatagram c msgID M n i) = true :=
  fragDatagram_isFrag c msgID M n i

theorem processDatagram_step_mid (c : Nat) (msgID M : Str)
    (hid : ∀ ch ∈ msgID, ¬ ch = ':') (js : List Nat) (i : Nat) (hnotin : i ∉ js)
    (hlt : js.length + 1 < numChunksOf c M) :
    processDatagram [] (mkState c msgID M js)
        (fragDatagram c msgID M (numChunksOf c M) i) =
      (mkState c msgID M (js ++ [i]), none) := by
  set n := numChunksOf c M with hn
  by_cases hjs : js = []
  · subst hjs
    have h0 : ((1 : Int)) ≠ ((n : Nat) : Int) := by
      have h1 : (1 : Nat) ≠ n := by omega
      exact_mod_cast h1
    simp only [processDatagram, mkState, if_pos rfl, isFrag_char_list,
      splitN_fragDatagram c msgID M n i hid, atoi?_natToDigits, if_true]
    simp [initState, alookup, aupsert, mkEntry, h0]
  · have hlook : alookup [(msgID, mkEntry c M js)] msgID = some (mkEntry c M js) := by
      simp [alookup]
    have hfresh : alookup (mkEntry c M js) ((i : Int)) = none :=
      alookup_mkEntry_not_mem c M js i hnotin
    have happ : js ++ [i] ≠ [] := by simp
    simp only [processDatagram, mkState, if_neg hjs, isFrag_char_list,
      splitN_fragDatagram c msgID M n i hid, atoi?_natToDigits, if_true]
    simp only [hlook, Option.isSome_some, if_true, Option.getD_some]
    rw [aupsert_of_lookup_none _ _ _ hfresh, ← mkEntry_append]
    have hgl : (alookup [(msgID, ((n : Nat) : Int))] msgID).getD 0 = ((n : Nat) : Int) := by
      simp [alookup]
    have hlen : ((mkEntry c M (js ++ [i])).length : Int) ≠ ((n : Nat) : Int) := by
      rw [mkEntry_length]
      have h1 : (js ++ [i]).length ≠ n := by
        simp only [List.length_append, List.length_cons, List.length_nil]
        omega
      exact_mod_cast h1
    rw [hgl, if_neg hlen]
    simp [aupsert, mkState, happ]

theorem processDatagram_step_last (c : Nat) (msgID M : Str)
    (hid : ∀ ch ∈ msgID, ¬ ch = ':') (js : List Nat) (i : Nat) (hnotin : i ∉ js)
    (heq : js.length + 1 = numChunksOf c M) :
    (processDatagram [] (mkState c msgID M js)
        (fragDatagram c msgID M (numChunksOf c M) i)).2 =
      some (reassembleEntry (mkEntry c M (js ++ [i]))) := by
  set n := numChunksOf c M with hn
  by_cases hjs : js = []
  · subst hjs
    have h0 : ((1 : Int)) = ((n : Nat) : Int) := by
      have h1 : (1 : Nat) = n := by simpa using heq
      exact_mod_cast h1
    simp only [processDatagram, mkState, if_pos rfl, isFrag_char_list,
      splitN_fragDatagram c msgID M n i hid, atoi?_natToDigits, if_true]
    simp [initState, alookup, aupsert, mkEntry, h0, List.isPrefixOf]
  · have hlook : alookup [(msgID, mkEntry c M js)] msgID = some (mkEntry c M js) := by
      simp [alookup]
    have hfresh : alookup (mkEntry c M js) ((i : Int)) = none :=
      alookup_mkEntry_not_mem c M js i hnotin
    simp only [processDatagram, mkState, if_neg hjs, isFrag_char_list,
      splitN_fragDatagram c msgID M n i hid, atoi?_natToDigits, if_true]
    simp only [hlook, Option.isSome_some, if_true, Option.getD_some]
    rw [aupsert_of_lookup_none _ _ _ hfresh, ← mkEntry_append]
    have hgl : (alookup [(msgID, ((n : Nat) : Int))] msgID).getD 0 = ((n : Nat) : Int) := by
      simp [alookup]
    have hlen : ((mkEntry c M (js ++ [i])).length : Int) = ((n : Nat) : Int) := by
      rw [mkEntry_length]
      have h1 : (js ++ [i]).length = n := by
        simp only [List.length_append, List.length_cons, List.length_nil]
        omega
      exact_mod_cast h1
    rw [hgl, if_pos hlen]
    simp [List.isPrefixOf]

/-! ### Running the receive loop over a permuted fragment sequence -/

theorem runWait_cons_some (pfx : Str) (st : ReState) (msg : Str) (rest : List Str)
    (r : Str) (h : (processDatagram pfx st msg).2 = some r) :
    runWait pfx st (msg :: rest) = some r := by
  rw [runWait]
  rcases hp : processDatagram pfx st msg with ⟨st1, o⟩
  rw [hp] at h
  simp at h
  rw [h]

theorem runWait_cons_none (pfx : Str) (st st1 : ReState) (msg : Str) (rest : List Str)
    (h : processDatagram pfx st msg = (st1, none)) :
    runWait pfx st (msg :: rest) = runWait pfx st1 rest := by
  rw [runWait, h]

/-- Feeding the reassembler the chunks indexed by `is` (any order), after
the chunks indexed by `js` already arrived, completes the message as soon
as the last chunk lands. -/
theorem runWait_fragments_aux (c : Nat) (hc : 1 ≤ c) (msgID M : Str)
    (hid : ∀ ch ∈ msgID, ¬ ch = ':') :
    ∀ (is js : List Nat), is ≠ [] →
      (js ++ is).Perm (List.range (numChunksOf c M)) →
      runWait [] (mkState c msgID M js)
          (is.map (fragDatagram c msgID M (numChunksOf c M))) = some M := by
  intro is
  induction is with
  | nil => intro js h; exact absurd rfl h
  | cons i it ih =>
      intro js _ hperm
      have hnodup : (js ++ i :: it).Nodup :=
        hperm.symm.nodup (List.nodup_range _)
      have hnotin : i ∉ js := by
        rcases List.nodup_append.mp hnodup with ⟨_, _, hdisj⟩
        intro hmem
        exact hdisj hmem (List.mem_cons_self i it)
      have hlen : js.length + (it.length + 1) = numChunksOf c M := by
        have := hperm.length_eq
        simpa [Nat.add_comm, Nat.add_assoc, Nat.add_left_comm] using this
      rcases hit : it with _ | ⟨i2, it2⟩
      · subst hit
        have heq : js.length + 1 = numChunksOf c M := by simpa using hlen
        have hperm1 : (js ++ [i]).Perm (List.range (numChunksOf c M)) := hperm
        rw [List.map_cons, List.map_nil]
        refine runWait_cons_some _ _ _ _ _ ?_
        rw [processDatagram_step_last c msgID M hid js i hnotin heq]
        rw [reassembleEntry_mkEntry c hc M (js ++ [i]) hperm1]
      · subst hit
        have hlt : js.length + 1 < numChunksOf c M := by
          simp only [List.length_cons] at hlen
          omega
        rw [List.map_cons]
        rw [runWait_cons_none _ _ _ _ _
          (processDatagram_step_mid c msgID M hid js i hnotin hlt)]
        refine ih (js ++ [i]) (by simp) ?_
        rw [List.append_assoc]
        exact hperm

/-- Splitting a permutation of a mapped list into a permuted preimage. -/
theorem exists_perm_map {α β : Type} (f : α → β) :
    ∀ (l : List β) (xs : List α), l.Perm (xs.map f) →
      ∃ ys : List α, ys.Perm xs ∧ l = ys.map f := by
  intro l
  induction l with
  | nil =>
      intro xs h
      have : xs.map f = [] := h.nil_eq.symm
      rcases List.map_eq_nil_iff.mp this with rfl
      exact ⟨[], List.Perm.refl _, rfl⟩
  | cons b l ih =>
      intro xs h
      have hb : b ∈ xs.map f := h.mem_iff.mp (List.mem_cons_self b l)
      rcases List.mem_map.mp hb with ⟨a, ha, rfl⟩
      rcases List.append_of_mem ha with ⟨xs1, xs2, rfl⟩
      have hmid : ((xs1 ++ a :: xs2).map f).Perm (f a :: (xs1 ++ xs2).map f) := by
        simp only [List.map_append, List.map_cons]
        exact List.perm_middle
      have h2 : (f a :: l).Perm (f a :: (xs1 ++ xs2).map f) := h.trans hmid
      have h3 : l.Perm ((xs1 ++ xs2).map f) := h2.cons_inv
      rcases ih (xs1 ++ xs2) h3 with ⟨ys, hys, rfl⟩
      refine ⟨a :: ys, ?_, rfl⟩
      exact (hys.cons a).trans List.perm_middle.symm

theorem splitN_frag_header (msgID t ix rest : Str)
    (hid : ∀ ch ∈ msgID, ¬ ch = ':') (ht : ∀ ch ∈ t, ¬ ch = ':')
    (hx : ∀ ch ∈ ix, ¬ ch = ':') :
    splitN ':' 5
        ("FRAG:".data ++ msgID ++ ":".data ++ t ++ ":".data ++ ix ++ ":".data ++ rest) =
      ["FRAG".data, msgID, t, ix, rest] := by
  have hsh : "FRAG:".data ++ msgID ++ ":".data ++ t ++ ":".data ++ ix ++ ":".data ++ rest =
      "FRAG".data ++ ':' :: (msgID ++ ':' :: (t ++ ':' :: (ix ++ ':' :: rest))) := by
    simp
  rw [hsh]
  rw [show (5 : Nat) = 3 + 2 from rfl,
    splitN_cons_sep ':' 3 "FRAG".data _ (by decide)]
  rw [show (3 : Nat) + 1 = 2 + 2 from rfl, splitN_cons_sep ':' 2 msgID _ hid]
  rw [show (2 : Nat) + 1 = 1 + 2 from rfl, splitN_cons_sep ':' 1 t _ ht]
  rw [show (1 : Nat) + 1 = 0 + 2 from rfl, splitN_cons_sep ':' 0 ix _ hx]
  rfl

/-! ## The claims -/

/-- C1 as literally stated fails on the empty message: fragmenting `M = ""`
produces zero chunks (`numChunks = 0`), so the reassembler never completes
anything and the wait would run into its deadline instead of returning the
empty message. -/
theorem roundtrip_fails_on_empty_message :
    ¬ runWait [] initState (writeFragments 1 ['1'] ([] : Str)) = some ([] : Str) := by
  decide

/-- Shared round-trip core: a permutation of the fragments of a nonempty
message reassembles to the message. -/
theorem runWait_roundtrip (c : Nat) (hc : 1 ≤ c) (msgID M : Str)
    (hM : M ≠ []) (hid : ∀ ch ∈ msgID, ¬ ch = ':') (l : List Str)
    (hperm : l.Perm (writeFragments c msgID M)) :
    runWait [] initState l = some M := by
  have hn1 : 1 ≤ numChunksOf c M := by
    rw [numChunksOf, Nat.one_le_div_iff hc]
    have := List.length_pos.mpr hM
    omega
  have hw : writeFragments c msgID M =
      (List.range (numChunksOf c M)).map (fragDatagram c msgID M (numChunksOf c M)) := rfl
  rw [hw] at hperm
  rcases exists_perm_map _ l _ hperm with ⟨is, his, rfl⟩
  have hne : is ≠ [] := by
    intro h
    subst h
    have h0 := his.length_eq
    simp at h0
    omega
  have hrun := runWait_fragments_aux c hc msgID M hid is [] hne (by simpa using his)
  simpa [mkState] using hrun

/-- C1 (amended to nonempty messages): for every nonempty message `M` and
every chunk ceiling `maxChunkSize ≥ 1`, fragmenting `M` with
`writeFragments` and feeding the resulting chunk datagrams to the
reassembler in any permutation of arrival order reconstructs exactly `M`
(the reassembler concatenates strictly in ascending `chunkIndex` order). -/
theorem fragment_reassemble_roundtrip (c : Nat) (hc : 1 ≤ c) (msgID M : Str)
    (hM : M ≠ []) (hid : ∀ ch ∈ msgID, ¬ ch = ':') (l : List Str)
    (hperm : l.Perm (writeFragments c msgID M)) :
    runWait [] initState l = some M :=
  runWait_roundtrip c hc msgID M hM hid l hperm

theorem fragment_reassemble_roundtrip_witness :
    runWait [] initState ((writeFragments 2 ['9'] "HELLO".data).reverse) =
      some "HELLO".data :=
  fragment_reassemble_roundtrip 2 (by decide) ['9'] "HELLO".data (by decide)
    (by decide) _ (List.reverse_perm _)

/-- C5: the fragmenter emits exactly `⌈len(M)/c⌉` chunks; an exact multiple
yields exactly `len(M)/c` chunks (no trailing empty chunk), and every
emitted chunk carries that same `totalChunks` value in its header. -/
theorem writeFragments_chunk_count (c : Nat) (hc : 1 ≤ c) (msgID M : Str)
    (hid : ∀ ch ∈ msgID, ¬ ch = ':') :
    (writeFragments c msgID M).length = (M.length + c - 1) / c ∧
    (c ∣ M.length → (writeFragments c msgID M).length = M.length / c) ∧
    (∀ d ∈ writeFragments c msgID M,
      fragTotal? d = some (((M.length + c - 1) / c : Nat) : Int)) := by
  refine ⟨by simp [writeFragments], ?_, ?_⟩
  · rintro ⟨q, hq⟩
    simp only [writeFragments, List.length_map, List.length_range]
    rw [hq, Nat.add_sub_assoc hc, Nat.mul_add_div (by omega),
      Nat.div_eq_of_lt (by omega), Nat.mul_div_cancel_left q (by omega)]
    omega
  · intro d hd
    simp only [writeFragments, List.mem_map, List.mem_range] at hd
    rcases hd with ⟨i, _, rfl⟩
    rw [fragTotal?, splitN_fragDatagram c msgID M _ i hid]
    simp [atoi?_natToDigits]

theorem writeFragments_chunk_count_witness :
    (writeFragments 3 ['7'] "ABCDEF".data).length = 2 ∧
    (writeFragments 3 ['7'] "ABCDEF".data).length = 2 ∧
    fragTotal? (fragDatagram 3 ['7'] "ABCDEF".data 2 0) = some 2 := by
  obtain ⟨h1, h2, h3⟩ := writeFragments_chunk_count 3 (by decide) ['7'] "ABCDEF".data
    (by decide)
  refine ⟨h1, h2 (by decide), ?_⟩
  have := h3 (fragDatagram 3 ['7'] "ABCDEF".data 2 0)
    (by simp [writeFragments]; exact ⟨0, by decide, rfl⟩)
  simpa using this

/-- C6: the reassembler splits an inbound `FRAG:` datagram on at most the
first four `:` separators, so a chunk payload containing `:` survives
parsing intact, and a message whose text contains `:` round-trips byte for
byte. -/
theorem colon_payload_preserved (msgID t ix payload M : Str)
    (hid : ∀ ch ∈ msgID, ¬ ch = ':') (ht : ∀ ch ∈ t, ¬ ch = ':')
    (hx : ∀ ch ∈ ix, ¬ ch = ':') (c : Nat) (hc : 1 ≤ c) (hMc : ':' ∈ M)
    (l : List Str) (hperm : l.Perm (writeFragments c msgID M)) :
    splitN ':' 5
        ("FRAG:".data ++ msgID ++ ":".data ++ t ++ ":".data ++ ix ++ ":".data ++ payload) =
      ["FRAG".data, msgID, t, ix, payload] ∧
    runWait [] initState l = some M := by
  refine ⟨splitN_frag_header msgID t ix payload hid ht hx, ?_⟩
  have hM : M ≠ [] := by
    intro h
    rw [h] at hMc
    simp at hMc
  exact runWait_roundtrip c hc msgID M hM hid l hperm

theorem colon_payload_preserved_witness :
    splitN ':' 5
        ("FRAG:".data ++ ['9'] ++ ":".data ++ ['1'] ++ ":".data ++ ['0'] ++ ":".data ++
          "a:b".data) =
      ["FRAG".data, ['9'], ['1'], ['0'], "a:b".data] ∧
    runWait [] initState ((writeFragments 2 ['9'] "X:Y:Z".data).reverse) =
      some "X:Y:Z".data :=
  colon_payload_preserved ['9'] ['1'] ['0'] "a:b".data "X:Y:Z".data
    (by decide) (by decide) (by decide) 2 (by decide) (by decide) _
    (List.reverse_perm _)

/-- C7: a malformed `FRAG:` datagram — fewer than five `:`-separated
fields, or a non-numeric `totalChunks` or `chunkIndex` field — is dropped:
the reassembly state is returned unchanged, nothing is emitted, and any
following traffic is processed exactly as if the malformed datagram had
never arrived. -/
theorem malformed_fragment_dropped (pfx : Str) (st : ReState) (msg : Str)
    (rest : List Str) (hfrag : "FRAG:".data.isPrefixOf msg = true)
    (hbad : (splitN ':' 5 msg).length ≠ 5 ∨
      ∃ p0 p1 t x p4, splitN ':' 5 msg = [p0, p1, t, x, p4] ∧
        (atoi? t = none ∨ atoi? x = none)) :
    processDatagram pfx st msg = (st, none) ∧
    runWait pfx st (msg :: rest) = runWait pfx st rest := by
  have hproc : processDatagram pfx st msg = (st, none) := by
    rcases hbad with hlen | ⟨p0, p1, t, x, p4, hsp, hbadnum⟩
    · rcases hsp : splitN ':' 5 msg with _ | ⟨p0, _ | ⟨p1, _ | ⟨p2, _ | ⟨p3, _ | ⟨p4, _ | ⟨p5, tl⟩⟩⟩⟩⟩⟩ <;>
        rw [hsp] at hlen <;> simp only [processDatagram, hfrag, if_true, hsp] <;>
        first
        | rfl
        | (exact absurd rfl hlen)
    · rcases hbadnum with hbt | hbx
      · simp only [processDatagram, hfrag, if_true, hsp, hbt]
      · rcases hat : atoi? t with _ | v
        · simp only [processDatagram, hfrag, if_true, hsp, hat]
        · simp only [processDatagram, hfrag, if_true, hsp, hat, hbx]
  exact ⟨hproc, by rw [runWait_cons_none pfx st st msg rest hproc]⟩

theorem malformed_fragment_dropped_witness :
    processDatagram "ANSWER:".data initState "FRAG:9:two:0:abc".data =
      (initState, none) ∧
    runWait "ANSWER:".data initState
        ["FRAG:9:two:0:abc".data, "ANSWER:ok".data] =
      runWait "ANSWER:".data initState ["ANSWER:ok".data] :=
  malformed_fragment_dropped "ANSWER:".data initState "FRAG:9:two:0:abc".data
    ["ANSWER:ok".data] (by decide)
    (Or.inr ⟨"FRAG".data, ['9'], "two".data, ['0'], "abc".data, by decide,
      Or.inl (by decide)⟩)

/-- C2 as stated fails on the code: a fragment that completes its message
(`receivedChunks` reaches `totalChunks`) but whose reassembled text does
not start with the awaited prefix is discarded, yet its entry is NOT
removed — the `delete` calls sit inside the prefix-match branch, so the
completed entry stays in both tables. -/
theorem completed_nonmatching_entry_persists :
    (processDatagram "ANSWER:".data initState "FRAG:7:1:0:hello".data).2 = none ∧
    alookup (processDatagram "ANSWER:".data initState
      "FRAG:7:1:0:hello".data).1.chunks ['7'] ≠ none ∧
    alookup (processDatagram "ANSWER:".data initState
      "FRAG:7:1:0:hello".data).1.totalChunks ['7'] = some 1 := by
  decide

/-- C2 (amended): when a fragment completes its message, the pending entry
is removed from both reassembly tables exactly when the reassembled
message starts with the awaited prefix (and the message is returned with
the prefix stripped); a completed message that does not start with the
prefix is not returned, and its table entry persists. -/
theorem completion_removes_entry_iff_match (pfx : Str) (st : ReState)
    (msg p0 msgID numStr idxStr payload : Str) (t ix : Int)
    (A : List (Int × Str)) (hfrag : "FRAG:".data.isPrefixOf msg = true)
    (hsp : splitN ':' 5 msg = [p0, msgID, numStr, idxStr, payload])
    (hnum : atoi? numStr = some t) (hidx : atoi? idxStr = some ix)
    (hentry : alookup st.chunks msgID = some A)
    (htot : alookup st.totalChunks msgID = some t)
    (hfreshkey : alookup A ix = none)
    (hcomplete : ((A.length + 1 : Nat) : Int) = t) :
    (pfx.isPrefixOf (reassembleEntry (aupsert A ix payload)) = true →
      processDatagram pfx st msg =
        (⟨aremove (aupsert st.chunks msgID (aupsert A ix payload)) msgID,
            aremove st.totalChunks msgID⟩,
          some ((reassembleEntry (aupsert A ix payload)).drop pfx.length))) ∧
    (¬ pfx.isPrefixOf (reassembleEntry (aupsert A ix payload)) = true →
      processDatagram pfx st msg =
        (⟨aupsert st.chunks msgID (aupsert A ix payload), st.totalChunks⟩, none) ∧
      alookup (aupsert st.chunks msgID (aupsert A ix payload)) msgID =
        some (aupsert A ix payload)) := by
  have hlen : ((aupsert A ix payload).length : Int) = t := by
    rw [aupsert_of_lookup_none _ _ _ hfreshkey]
    simpa using hcomplete
  constructor
  · intro hmatch
    simp only [processDatagram, hfrag, if_true, hsp, hnum, hidx, hentry,
      Option.isSome_some, Option.getD_some, htot, hlen, if_pos rfl, hmatch]
  · intro hmiss
    refine ⟨?_, alookup_aupsert_self _ _ _⟩
    simp only [processDatagram, hfrag, if_true, hsp, hnum, hidx, hentry,
      Option.isSome_some, Option.getD_some, htot, hlen, if_pos rfl, hmiss]
    simp

/-! ### Round-robin counting lemmas -/

theorem succ_div_mod (k N : Nat) (hk : 0 < k) :
    (N % k = k - 1 → (N + 1) / k = N / k + 1 ∧ (N + 1) % k = 0) ∧
    (¬ N % k = k - 1 → (N + 1) / k = N / k ∧ (N + 1) % k = N % k + 1) := by
  have hdm := Nat.div_add_mod N k
  have hmlt : N % k < k := Nat.mod_lt _ hk
  constructor
  · intro h
    have h1 : k * (N / k + 1) = k * (N / k) + k := Nat.mul_succ k (N / k)
    have heq : N + 1 = k * (N / k + 1) := by omega
    rw [heq, Nat.mul_div_cancel_left _ hk, Nat.mul_mod_right]
    exact ⟨rfl, rfl⟩
  · intro h
    have hlt : N % k + 1 < k := by omega
    have heq : N + 1 = k * (N / k) + (N % k + 1) := by omega
    have hdiv : (k * (N / k) + (N % k + 1)) / k = N / k + (N % k + 1) / k :=
      Nat.mul_add_div hk _ _
    have hz : (N % k + 1) / k = 0 := Nat.div_eq_of_lt hlt
    have hmod : (k * (N / k) + (N % k + 1)) % k = (N % k + 1) % k :=
      Nat.mul_add_mod _ _ _
    have hm2 : (N % k + 1) % k = N % k + 1 := Nat.mod_eq_of_lt hlt
    constructor
    · rw [heq, hdiv, hz]
      omega
    · rw [heq, hmod, hm2]

theorem count_mod_range (k t : Nat) (hk : 0 < k) (ht : t < k) :
    ∀ N, ((List.range N).filter (fun i => i % k = t)).length =
      N / k + (if t < N % k then 1 else 0) := by
  intro N
  induction N with
  | zero => simp
  | succ N ih =>
      rw [List.range_succ, List.filter_append, List.length_append, ih]
      obtain ⟨hbr1, hbr2⟩ := succ_div_mod k N hk
      have hmlt : N % k < k := Nat.mod_lt _ hk
      by_cases hklast : N % k = k - 1
      · obtain ⟨hd, hm⟩ := hbr1 hklast
        rw [hd, hm]
        by_cases hN : N % k = t
        · have hfl : (List.filter (fun i => decide (i % k = t)) [N]).length = 1 := by
            simp [hN]
          rw [hfl]
          split_ifs <;> omega
        · have hfl : (List.filter (fun i => decide (i % k = t)) [N]).length = 0 := by
            simp [hN]
          rw [hfl]
          split_ifs <;> omega
      · obtain ⟨hd, hm⟩ := hbr2 hklast
        rw [hd, hm]
        by_cases hN : N % k = t
        · have hfl : (List.filter (fun i => decide (i % k = t)) [N]).length = 1 := by
            simp [hN]
          rw [hfl]
          split_ifs <;> omega
        · have hfl : (List.filter (fun i => decide (i % k = t)) [N]).length = 0 := by
            simp [hN]
          rw [hfl]
          split_ifs <;> omega

theorem shift_mod_iff (k a i j : Nat) (hk : 0 < k) (hj : j < k) :
    (a + i) % k = j ↔ i % k = (j + (k - a % k)) % k := by
  have hr : a % k < k := Nat.mod_lt _ hk
  have hs : i % k < k := Nat.mod_lt _ hk
  rw [Nat.add_mod]
  constructor
  · intro h
    by_cases hrs : a % k + i % k < k
    · rw [Nat.mod_eq_of_lt hrs] at h
      have h1 : j + (k - a % k) = i % k + k := by omega
      rw [h1, Nat.add_mod_right, Nat.mod_eq_of_lt hs]
    · have h3 : (a % k + i % k) % k = a % k + i % k - k := by
        rw [Nat.mod_eq_sub_mod (by omega), Nat.mod_eq_of_lt (by omega)]
      rw [h3] at h
      have h1 : j + (k - a % k) = i % k := by omega
      rw [h1, Nat.mod_eq_of_lt hs]
  · intro h
    by_cases hjr : j + (k - a % k) < k
    · rw [Nat.mod_eq_of_lt hjr] at h
      have hge : k ≤ a % k + i % k := by omega
      rw [Nat.mod_eq_sub_mod hge, Nat.mod_eq_of_lt (by omega)]
      omega
    · have h3 : (j + (k - a % k)) % k = j + (k - a % k) - k := by
        rw [Nat.mod_eq_sub_mod (by omega), Nat.mod_eq_of_lt (by omega)]
      rw [h3] at h
      rw [Nat.mod_eq_of_lt (by omega)]
      omega

theorem count_shift (k a j : Nat) (hk : 0 < k) (hj : j < k) (N : Nat) :
    ((List.range N).filter (fun i => (a + i) % k = j)).length =
      N / k + (if (j + (k - a % k)) % k < N % k then 1 else 0) := by
  have heq : (List.range N).filter (fun i => decide ((a + i) % k = j)) =
      (List.range N).filter (fun i => decide (i % k = (j + (k - a % k)) % k)) := by
    apply List.filter_congr
    intro i _
    simp only [decide_eq_decide]
    exact shift_mod_iff k a i j hk hj
  rw [heq, count_mod_range k _ hk (Nat.mod_lt _ hk)]

theorem ceil_div_of_pos_mod (k N : Nat) (hk : 0 < k) (h : N % k ≠ 0) :
    (N + k - 1) / k = N / k + 1 := by
  have hdm := Nat.div_add_mod N k
  have hmlt : N % k < k := Nat.mod_lt _ hk
  have h1 : N + k - 1 = k * (N / k) + (N % k + k - 1) := by omega
  have h2 : N % k + k - 1 = (N % k - 1) + k := by omega
  have h3 : (N % k - 1) / k = 0 := Nat.div_eq_of_lt (by omega)
  rw [h1, Nat.mul_add_div hk, h2, Nat.add_div_right _ hk, h3]

/-! ### Registry lemmas -/

theorem nextTargets_entry {Conn : Type} [DecidableEq Conn] (id : String)
    (s : List Conn) (hk : 0 < s.length) (ctl : Option Conn) :
    ∀ (N a : Nat) (m : Manager Conn), alookup m.clients id = some ⟨ctl, s, a⟩ →
      nextTargets m id N = (List.range N).map
        (fun i => some (s.get ⟨(a + i) % s.length, Nat.mod_lt _ hk⟩)) := by
  intro N
  induction N with
  | zero => intro a m _; simp [nextTargets]
  | succ N ih =>
      intro a m hm
      rw [nextTargets]
      have hnt : NextTarget m id =
          (some (s.get ⟨a % s.length, Nat.mod_lt _ hk⟩),
            ⟨aupsert m.clients id ⟨ctl, s, a + 1⟩⟩) := by
        simp [NextTarget, hm, hk]
      rw [hnt]
      have hm2 : alookup (aupsert m.clients id (⟨ctl, s, a + 1⟩ : Client Conn)) id =
          some ⟨ctl, s, a + 1⟩ := alookup_aupsert_self _ _ _
      rw [ih (a + 1) _ hm2, List.range_succ_eq_map, List.map_cons, List.map_map]
      refine congrArg₂ List.cons ?_ ?_
      · simp
      · apply List.map_congr_left
        intro i _
        simp only [Function.comp]
        have h3 : a + 1 + i = a + Nat.succ i := by omega
        rw [h3]

theorem nextTargets_congr {Conn : Type} [DecidableEq Conn] (idB : String) :
    ∀ (N : Nat) (m1 m2 : Manager Conn),
      alookup m1.clients idB = alookup m2.clients idB →
      nextTargets m1 idB N = nextTargets m2 idB N := by
  intro N
  induction N with
  | zero => intro m1 m2 _; rfl
  | succ N ih =>
      intro m1 m2 h
      rw [nextTargets, nextTargets]
      rcases hc : alookup m1.clients idB with _ | c
      · have hc2 : alookup m2.clients idB = none := by rw [← h, hc]
        simp only [NextTarget, hc, hc2]
        exact congrArg _ (ih m1 m2 h)
      · have hc2 : alookup m2.clients idB = some c := by rw [← h, hc]
        simp only [NextTarget, hc, hc2]
        by_cases hk : 0 < c.Streams.length
        · simp only [dif_pos hk]
          refine congrArg _ (ih _ _ ?_)
          simp only [alookup_aupsert_self]
        · simp only [dif_neg hk]
          exact congrArg _ (ih m1 m2 h)

/-! ### Registry claims -/

/-- C3: from a fresh session, `AddStream(A, c1)` then `AddStream(A, c2)`
followed by four `NextTarget(A)` calls yields `c1, c2, c1, c2`; in
general, with `k` stream connections the `i`-th call returns the
connection at position `(cursor + i) mod k` (a fixed cyclic order), and
over `N` calls each position is selected `⌊N/k⌋` or `⌈N/k⌉` times. -/
theorem nextTarget_round_robin {Conn : Type} [DecidableEq Conn] (c1 c2 : Conn)
    (id : String) (s : List Conn) (ctl : Option Conn) (a N : Nat)
    (m : Manager Conn) (hm : alookup m.clients id = some ⟨ctl, s, a⟩)
    (hk : 0 < s.length) :
    nextTargets (AddStream (AddStream (NewManager Conn) "A" c1) "A" c2) "A" 4 =
      [some c1, some c2, some c1, some c2] ∧
    nextTargets m id N = (List.range N).map
      (fun i => some (s.get ⟨(a + i) % s.length, Nat.mod_lt _ hk⟩)) ∧
    (∀ j : Nat, j < s.length →
      ((List.range N).filter (fun i => (a + i) % s.length = j)).length = N / s.length ∨
      ((List.range N).filter (fun i => (a + i) % s.length = j)).length =
        (N + s.length - 1) / s.length) := by
  refine ⟨?_, nextTargets_entry id s hk ctl N a m hm, ?_⟩
  · simp [nextTargets, NextTarget, AddStream, NewManager, getOrCreate, alookup, aupsert]
  · intro j hj
    rw [count_shift s.length a j hk hj N]
    by_cases hc : (j + (s.length - a % s.length)) % s.length < N % s.length
    · right
      rw [if_pos hc]
      have hmod : N % s.length ≠ 0 := by omega
      rw [ceil_div_of_pos_mod s.length N hk hmod]
    · left
      rw [if_neg hc]
      omega

theorem nextTarget_round_robin_witness :
    nextTargets (AddStream (AddStream (NewManager Nat) "A" 1) "A" 2) "A" 4 =
      [some 1, some 2, some 1, some 2] ∧
    nextTargets (⟨[("B", ⟨none, [5, 6], 0⟩)]⟩ : Manager Nat) "B" 5 =
      (List.range 5).map
        (fun i => some (([5, 6] : List Nat).get ⟨(0 + i) % 2, Nat.mod_lt _ (by decide)⟩)) ∧
    (∀ j : Nat, j < 2 →
      ((List.range 5).filter (fun i => (0 + i) % 2 = j)).length = 5 / 2 ∨
      ((List.range 5).filter (fun i => (0 + i) % 2 = j)).length = (5 + 2 - 1) / 2) :=
  nextTarget_round_robin 1 2 "B" [5, 6] none 0 5
    (⟨[("B", ⟨none, [5, 6], 0⟩)]⟩ : Manager Nat) (by simp [alookup]) (by decide)

/-- C4: for a session that exists but has zero stream connections,
`NextTarget` returns the control connection when one is installed and
"no target" (`none`) when the session has neither, leaving the registry
unchanged in both cases. -/
theorem nextTarget_fallback {Conn : Type} [DecidableEq Conn] (m : Manager Conn)
    (id : String) (c : Client Conn) (hc : alookup m.clients id = some c)
    (hs : c.Streams = []) :
    (NextTarget m id).1 = c.Control ∧ (NextTarget m id).2 = m := by
  simp [NextTarget, hc, hs]

theorem nextTarget_fallback_witness :
    (NextTarget (⟨[("A", ⟨some 7, [], 3⟩)]⟩ : Manager Nat) "A").1 = some 7 ∧
    (NextTarget (⟨[("A", ⟨some 7, [], 3⟩)]⟩ : Manager Nat) "A").2 =
      (⟨[("A", ⟨some 7, [], 3⟩)]⟩ : Manager Nat) :=
  nextTarget_fallback (⟨[("A", ⟨some 7, [], 3⟩)]⟩ : Manager Nat) "A"
    ⟨some 7, [], 3⟩ (by simp [alookup]) rfl

/-- C10: `NextTarget` for an id with no session returns `none` and leaves
the registry unchanged — unlike `SetControl` and `AddStream` it never
creates a session. -/
theorem nextTarget_unknown_id {Conn : Type} [DecidableEq Conn] (m : Manager Conn)
    (id : String) (h : alookup m.clients id = none) :
    NextTarget m id = (none, m) := by
  simp [NextTarget, h]

theorem nextTarget_unknown_id_witness :
    NextTarget (NewManager Nat) "B" = (none, NewManager Nat) :=
  nextTarget_unknown_id (NewManager Nat) "B" rfl

/-- C8: `SetControl` installs `conn` as the control connection (creating
the session when absent) and returns a stale connection to close exactly
when a control connection existed before and differed from `conn`. -/
theorem setControl_spec {Conn : Type} [DecidableEq Conn] (m : Manager Conn)
    (id : String) (conn : Conn) :
    (∃ c1 : Client Conn, alookup (SetControl m id conn).1.clients id = some c1 ∧
      c1.Control = some conn) ∧
    (∀ x : Conn, (SetControl m id conn).2 = some x ↔
      (alookup m.clients id).bind (fun c => c.Control) = some x ∧ x ≠ conn) := by
  constructor
  · exact ⟨_, alookup_aupsert_self _ _ _, rfl⟩
  · intro x
    rcases hc : alookup m.clients id with _ | c0
    · have hres : (SetControl m id conn).2 = none := by
        simp [SetControl, getOrCreate, hc]
      rw [hres]
      simp
    · have hgo : getOrCreate m id = c0 := by simp [getOrCreate, hc]
      rcases hctl : c0.Control with _ | y
      · have hres : (SetControl m id conn).2 = none := by
          simp [SetControl, hgo, hctl]
        rw [hres]
        simp [hctl]
      · by_cases hy : y = conn
        · have hctl2 : c0.Control = some conn := by rw [hctl, hy]
          have hres : (SetControl m id conn).2 = none := by
            simp only [SetControl, hgo]
            rw [if_neg (by simp [hctl2])]
          rw [hres]
          rw [Option.some_bind, hctl2]
          constructor
          · intro h
            cases h
          · rintro ⟨h1, h2⟩
            exact absurd (Option.some.inj h1).symm h2
        · have hres : (SetControl m id conn).2 = some y := by
            simp only [SetControl, hgo]
            rw [if_pos ⟨by simp [hctl], by simp [hctl, hy]⟩, hctl]
          rw [hres]
          rw [Option.some_bind, hctl]
          constructor
          · intro h
            refine ⟨h, ?_⟩
            have hxy : y = x := Option.some.inj h
            rw [← hxy]
            exact hy
          · exact fun h => h.1

theorem setControl_spec_witness :
    (∃ c1 : Client Nat, alookup (SetControl (⟨[("A", ⟨some 5, [], 0⟩)]⟩ : Manager Nat)
      "A" 6).1.clients "A" = some c1 ∧ c1.Control = some 6) ∧
    (∀ x : Nat, (SetControl (⟨[("A", ⟨some 5, [], 0⟩)]⟩ : Manager Nat) "A" 6).2 = some x ↔
      (alookup (⟨[("A", ⟨some 5, [], 0⟩)]⟩ : Manager Nat).clients "A").bind
        (fun c => c.Control) = some x ∧ x ≠ 6) :=
  setControl_spec (⟨[("A", ⟨some 5, [], 0⟩)]⟩ : Manager Nat) "A" 6

/-- C9: `RemoveStream` on client `A` leaves the session of any other client `B`
untouched, so the sequence of targets `NextTarget(B)` subsequently returns
is identical with or without the removal. -/
theorem removeStream_isolated {Conn : Type} [DecidableEq Conn] (m : Manager Conn)
    (A B : String) (conn : Conn) (hAB : A ≠ B) (N : Nat) :
    alookup (RemoveStream m A conn).clients B = alookup m.clients B ∧
    nextTargets (RemoveStream m A conn) B N = nextTargets m B N := by
  have hlook : alookup (RemoveStream m A conn).clients B = alookup m.clients B := by
    rw [RemoveStream]
    rcases h : alookup m.clients A with _ | c
    · rfl
    · exact alookup_aupsert_ne _ _ _ _ hAB
  exact ⟨hlook, nextTargets_congr B N _ _ hlook⟩

theorem removeStream_isolated_witness :
    alookup (RemoveStream (⟨[("A", ⟨none, [1], 0⟩), ("B", ⟨none, [2, 3], 0⟩)]⟩ :
      Manager Nat) "A" 1).clients "B" =
      alookup (⟨[("A", ⟨none, [1], 0⟩), ("B", ⟨none, [2, 3], 0⟩)]⟩ :
        Manager Nat).clients "B" ∧
    nextTargets (RemoveStream (⟨[("A", ⟨none, [1], 0⟩), ("B", ⟨none, [2, 3], 0⟩)]⟩ :
      Manager Nat) "A" 1) "B" 3 =
      nextTargets (⟨[("A", ⟨none, [1], 0⟩), ("B", ⟨none, [2, 3], 0⟩)]⟩ :
        Manager Nat) "B" 3 :=
  removeStream_isolated _ "A" "B" 1 (by decide) 3

theorem completion_removes_entry_iff_match_witness :
    processDatagram "ANSWER:".data (⟨[(['7'], [])], [(['7'], 1)]⟩ : ReState)
        "FRAG:7:1:0:hello".data =
      (⟨[(['7'], [(0, "hello".data)])], [(['7'], 1)]⟩, none) := by
  have h := (completion_removes_entry_iff_match "ANSWER:".data
    (⟨[(['7'], [])], [(['7'], 1)]⟩ : ReState) "FRAG:7:1:0:hello".data
    "FRAG".data ['7'] ['1'] ['0'] "hello".data 1 0 []
    (by decide) (by decide) (by decide) (by decide) (by decide) (by decide)
    (by decide) (by decide)).2 (by decide)
  rw [h.1]
  rfl

end WebRTCScreen
